import Mathlib

/-!
Verification development for the resume fit-scoring core of the
Resume-Analyzer repository (analyse_pdf.py, with the cache-substitution
step of app.py and the cache key of db_mysql.py).

The Python source is shallowly embedded: strings are Lean `String`
(lists of unicode characters), Python `set` becomes `Finset String`,
Python floats become exact rationals with an explicit two-decimal
rounding step, and the external collaborators (role-skill directory,
sentence-embedding model, cosine-similarity routine) are injected
dependencies, with fallible external calls returning `Except`.
SHA-256 (used by jd_hash_func via hashlib) is implemented in full so
that digests are computable facts.

Numeric modelling notes: Python rounds floats with round-half-to-even;
`roundHalfEven` reproduces that on exact rationals (binary floating
point representation error is not modelled; no statement below depends
on a rounding tie of an inexact float). Character case folding and the
regex whitespace class are modelled for ASCII; the tokenizer splits on
every character outside its keep-set, so non-ASCII letters are
separators both here and in the source.
-/

/-- Character class of the regex shorthand for whitespace used in
clean_text and extract_tokens (space, tab, newline, carriage return,
vertical tab, form feed). -/
def isWs (c : Char) : Bool :=
  c.toNat = 32 ∨ c.toNat = 9 ∨ c.toNat = 10 ∨ c.toNat = 13 ∨ c.toNat = 11 ∨ c.toNat = 12

/-- Bullet and dash glyphs normalised to spaces by extract_tokens line 25:
bullet U+2022, middle dot U+00B7, black pointer U+25BA, en dash U+2013,
em dash U+2014, and the ASCII hyphen. -/
def isBullet (c : Char) : Bool :=
  c.toNat = 8226 ∨ c.toNat = 183 ∨ c.toNat = 9658 ∨ c.toNat = 8211 ∨ c.toNat = 8212 ∨ c.toNat = 45

/-- The keep-class of the tokenizing split (line 29): lowercase ASCII
letters, digits, plus, hash, dot. Everything else separates tokens. -/
def isKeep (c : Char) : Bool :=
  (97 ≤ c.toNat ∧ c.toNat ≤ 122) ∨ (48 ≤ c.toNat ∧ c.toNat ≤ 57) ∨
    c.toNat = 43 ∨ c.toNat = 35 ∨ c.toNat = 46

/-- The punctuation strip-set of line 33: dot, comma, parentheses,
square brackets, curly brackets, colon, semicolon, double quote,
single quote. -/
def isStripPunct (c : Char) : Bool :=
  c.toNat = 46 ∨ c.toNat = 44 ∨ c.toNat = 40 ∨ c.toNat = 41 ∨ c.toNat = 91 ∨ c.toNat = 93 ∨
    c.toNat = 123 ∨ c.toNat = 125 ∨ c.toNat = 58 ∨ c.toNat = 59 ∨ c.toNat = 34 ∨ c.toNat = 39

/-- ASCII lowercasing, as applied by the lower() call on line 26. -/
def lowerChar (c : Char) : Char :=
  if 65 ≤ c.toNat ∧ c.toNat ≤ 90 then Char.ofNat (c.toNat + 32) else c

/-- Collapse every maximal run of spaces to a single space.  Mapping
whitespace to spaces first and then collapsing space runs is the regex
substitution of a whitespace run by one space. -/
def collapseSpaces : List Char → List Char
  | [] => []
  | [c] => [c]
  | a :: b :: t =>
    if a = ' ' ∧ b = ' ' then collapseSpaces (b :: t) else a :: collapseSpaces (b :: t)

/-- Drop the longest suffix whose characters satisfy p. -/
def dropWhileRight (p : Char → Bool) (l : List Char) : List Char :=
  (l.reverse.dropWhile p).reverse

/-- Strip characters satisfying p from both ends, as Python str.strip
with a character set. -/
def stripEnds (p : Char → Bool) (l : List Char) : List Char :=
  dropWhileRight p (l.dropWhile p)

/-- The whitespace-normalisation applied to raw text: substitute each
whitespace run by one space, then strip (clean_text line 18 and the
first step of the extract_tokens pipeline, line 26 before lower()). -/
def cleanChars (l : List Char) : List Char :=
  stripEnds isWs (collapseSpaces (l.map fun c => if isWs c then ' ' else c))

/-- clean_text (analyse_pdf.py lines 17-18): collapse whitespace runs
to single spaces and strip the ends.  A Python None argument reaches
this function as the empty string. -/
def clean_text (text : String) : String :=
  String.mk (cleanChars text.data)

/-- One step of Python str.replace: rewrite every non-overlapping
occurrence of pat left to right.  Structured with an explicit fuel
argument (one unit per character) so the definition is structurally
recursive and kernel-reducible; replaceList supplies adequate fuel. -/
def replaceFuel (pat rep : List Char) : Nat → List Char → List Char
  | _, [] => []
  | 0, l => l
  | n + 1, c :: t =>
    if pat ≠ [] ∧ pat <+: (c :: t) then
      rep ++ replaceFuel pat rep n (t.drop (pat.length - 1))
    else
      c :: replaceFuel pat rep n t

/-- Python str.replace(pat, rep) on character lists. -/
def replaceList (pat rep l : List Char) : List Char :=
  replaceFuel pat rep l.length l

/-- Split into the fragments produced by splitting on separator
characters (line 29).  The regex splits on maximal separator runs;
splitting character-by-character as here yields the same fragments
plus extra empty fragments between adjacent separators, and every
empty fragment is discarded unchanged by the token loop below, so the
surviving tokens coincide. -/
def splitFrags : List Char → List (List Char)
  | [] => [[]]
  | c :: t =>
    if isKeep c then
      match splitFrags t with
      | [] => [[c]]
      | f :: fs => (c :: f) :: fs
    else
      [] :: splitFrags t

/-- The stopword list of analyse_pdf.py lines 13-15. -/
def STOPWORDS : List String :=
  ["the", "and", "with", "for", "that", "this", "have", "has", "are", "is", "in", "on",
    "of", "to", "by", "as", "be", "will", "a", "an", "role"]

/-- The token loop of lines 30-35: drop a fragment while it is still
unstripped if it is empty, then strip surrounding punctuation, then
drop it if it is a stopword, otherwise keep it.  Note the emptiness
test happens before stripping, exactly as in the source. -/
def tokenLoop : List (List Char) → List (List Char)
  | [] => []
  | w :: rest =>
    if w = [] then tokenLoop rest
    else
      let w2 := stripEnds isStripPunct w
      if String.mk w2 ∈ STOPWORDS then tokenLoop rest
      else w2 :: tokenLoop rest

/-- extract_tokens (analyse_pdf.py lines 23-36): normalise bullets and
dashes to spaces, collapse whitespace, strip, lowercase, apply the two
fixed substring replacements, split on non-keep characters, and run the
token loop; collect the survivors into a set. -/
def extract_tokens (text : String) : Finset String :=
  let t1 := text.data.map fun c => if isBullet c then ' ' else c
  let t2 := (cleanChars t1).map lowerChar
  let t3 := replaceList "react.js".data "reactjs".data t2
  let t4 := replaceList "node.js".data "nodejs".data t3
  ((tokenLoop (splitFrags t4)).map String.mk).toFinset

/-- Floor of a rational, computed from its reduced fraction with
floor division. -/
def ratFloor (q : ℚ) : ℤ := Int.fdiv q.num q.den

/-- Round a rational to the nearest integer, ties to the even integer:
the behaviour of Python round on an exactly represented value. -/
def roundHalfEven (q : ℚ) : ℤ :=
  let f := ratFloor q
  let r : ℚ := q - (f : ℚ)
  if r < 1 / 2 then f
  else if 1 / 2 < r then f + 1
  else if f % 2 = 0 then f else f + 1

/-- Python round(x, 2): round to two decimal places. -/
def round2 (q : ℚ) : ℚ := (roundHalfEven (q * 100) : ℚ) / 100

/-- compute_presence_score (analyse_pdf.py lines 38-42): 0.0 for an
empty required set, otherwise the rounded percentage of required
skills present among the resume tokens. -/
def compute_presence_score (required_set resume_tokens_set : Finset String) : ℚ :=
  if required_set = ∅ then 0
  else round2 ((((required_set ∩ resume_tokens_set).card : ℚ) / (required_set.card : ℚ)) * 100)

/-- Python sorted(list(s)) on a set of strings: the elements in
lexicographic order. -/
def sortedList (s : Finset String) : List String := s.sort (· ≤ ·)

/-- The three skill buckets returned by the role-skill directory
(db_mysql.py get_role_skills_dict, always a dictionary with exactly
these keys). -/
structure RoleSkills where
  core : Finset String
  tools : Finset String
  soft : Finset String
deriving DecidableEq

/-- Python any(role_skills.values()): some bucket is non-empty. -/
def RoleSkills.hasAny (rs : RoleSkills) : Bool :=
  decide (rs.core.Nonempty ∨ rs.tools.Nonempty ∨ rs.soft.Nonempty)

/-- The record returned by analyse_resume_st (lines 128-143). -/
structure ScoreResult where
  raw_text : String
  overall : ℚ
  technical : ℚ
  experience : ℚ
  tools : ℚ
  soft : ℚ
  matching_core : List String
  matching_tools : List String
  matching_soft : List String
  missing_core : List String
  missing_tools : List String
  missing_soft : List String
  model_version : String
  jd_hash : String
deriving DecidableEq

/-- analyse_pdf.py line 8. -/
def MODEL_VERSION : String := "st-role-aware-v1"

/-- Decimal rendering of a two-decimal rational in the style Python
string formatting gives the score floats (69.0, 66.67). -/
def qRepr (q : ℚ) : String :=
  let sign := if q < 0 then "-" else ""
  let a : ℚ := |q|
  let w := ratFloor a
  let cents := ratFloor ((a - (w : ℚ)) * 100)
  if cents = 0 then sign ++ toString w ++ ".0"
  else if cents % 10 = 0 then sign ++ toString w ++ "." ++ toString (cents / 10)
  else if cents < 10 then sign ++ toString w ++ ".0" ++ toString cents
  else sign ++ toString w ++ "." ++ toString cents

/-- Python repr of a list joined with a comma, or the placeholder when
the list is empty, as used in the report lines. -/
def joinOr (items : List String) (placeholder : String) : String :=
  if items = [] then placeholder else String.intercalate ", " items

/-- The fixed-format report of analyse_pdf.py lines 97-126. -/
def renderReport (role_key : String) (overall technical_score experience_score tools_score soft_score : ℚ)
    (matching_core matching_tools matching_soft missing_core missing_tools : List String) : String :=
  String.intercalate "\n"
    [ "✅ Resume Fit Report"
    , "📌 Role: " ++ role_key
    , "📌 Overall Fit Score: " ++ qRepr overall ++ "/100"
    , ""
    , "🧠 Category Scores:"
    , "- Technical Skills: " ++ qRepr technical_score ++ "/100"
    , "- Experience Relevance: " ++ qRepr experience_score ++ "/100"
    , "- Tools & Platforms: " ++ qRepr tools_score ++ "/100"
    , "- Soft Skills: " ++ qRepr soft_score ++ "/100"
    , ""
    , "🔥 Strong Matches (Core skills):"
    , "- " ++ joinOr matching_core "None detected"
    , ""
    , "🔧 Tools / Platforms Matched:"
    , "- " ++ joinOr matching_tools "None detected"
    , ""
    , "✨ Soft/Domain Matches:"
    , "- " ++ joinOr matching_soft "None detected"
    , ""
    , "⚠️ Missing (priority) Core Skills:"
    , "- " ++ joinOr missing_core "None"
    , ""
    , "⚠️ Missing Tools:"
    , "- " ++ joinOr missing_tools "None"
    , ""
    , "🔍 Method:"
    , "This evaluation combines: role-aware required-skills matching, and semantic experience relevance using Transformer embeddings."
    ]

/-- UTF-8 encoding of one character as byte values. -/
def utf8EncodeChar (c : Char) : List Nat :=
  let n := c.toNat
  if n < 128 then [n]
  else if n < 2048 then [192 + n / 64, 128 + n % 64]
  else if n < 65536 then [224 + n / 4096, 128 + n / 64 % 64, 128 + n % 64]
  else [240 + n / 262144, 128 + n / 4096 % 64, 128 + n / 64 % 64, 128 + n % 64]

/-- UTF-8 encoding of a string as byte values. -/
def utf8Encode (s : String) : List Nat :=
  (s.data.map utf8EncodeChar).flatten

/-- Truncate to a 32-bit word. -/
def w32 (n : Nat) : Nat := n % 4294967296

/-- Rotate a 32-bit word right by n bits. -/
def rotr32 (n x : Nat) : Nat := w32 ((x >>> n) ||| (x <<< (32 - n)))

/-- Bitwise complement of a 32-bit word. -/
def not32 (x : Nat) : Nat := 4294967295 ^^^ x

/-- SHA-256 round constants (FIPS 180-4). -/
def sha256K : List Nat :=
  [ 1116352408, 1899447441, 3049323471, 3921009573, 961987163,
    1508970993, 2453635748, 2870763221, 3624381080, 310598401,
    607225278, 1426881987, 1925078388, 2162078206, 2614888103,
    3248222580, 3835390401, 4022224774, 264347078, 604807628,
    770255983, 1249150122, 1555081692, 1996064986, 2554220882,
    2821834349, 2952996808, 3210313671, 3336571891, 3584528711,
    113926993, 338241895, 666307205, 773529912, 1294757372,
    1396182291, 1695183700, 1986661051, 2177026350, 2456956037,
    2730485921, 2820302411, 3259730800, 3345764771, 3516065817,
    3600352804, 4094571909, 275423344, 430227734, 506948616,
    659060556, 883997877, 958139571, 1322822218, 1537002063,
    1747873779, 1955562222, 2024104815, 2227730452, 2361852424,
    2428436474, 2756734187, 3204031479, 3329325298 ]

/-- SHA-256 initial hash value. -/
def sha256H0 : List Nat :=
  [ 1779033703, 3144134277, 1013904242, 2773480762, 1359893119,
    2600822924, 528734635, 1541459225 ]

/-- Extend a 16-word block to the 64-word message schedule; the fuel
counts the 48 remaining words. -/
def sha256Extend : Nat → List Nat → List Nat
  | 0, ws => ws
  | n + 1, ws =>
    let m := ws.length
    let s0 :=
      let x := ws.getD (m - 15) 0
      rotr32 7 x ^^^ rotr32 18 x ^^^ (x >>> 3)
    let s1 :=
      let x := ws.getD (m - 2) 0
      rotr32 17 x ^^^ rotr32 19 x ^^^ (x >>> 10)
    sha256Extend n (ws ++ [w32 (ws.getD (m - 16) 0 + s0 + ws.getD (m - 7) 0 + s1)])

/-- One SHA-256 compression round, acting on the eight working words. -/
def sha256Round (st : List Nat) (kw : Nat × Nat) : List Nat :=
  match st with
  | [a, b, c, d, e, f, g, h] =>
    let S1 := rotr32 6 e ^^^ rotr32 11 e ^^^ rotr32 25 e
    let ch := (e &&& f) ^^^ (not32 e &&& g)
    let temp1 := w32 (h + S1 + ch + kw.1 + kw.2)
    let S0 := rotr32 2 a ^^^ rotr32 13 a ^^^ rotr32 22 a
    let maj := (a &&& b) ^^^ (a &&& c) ^^^ (b &&& c)
    let temp2 := w32 (S0 + maj)
    [w32 (temp1 + temp2), a, b, c, w32 (d + temp1), e, f, g]
  | st => st

/-- Compress one 16-word block into the running hash. -/
def sha256Compress (h : List Nat) (block : List Nat) : List Nat :=
  let ws := sha256Extend 48 block
  let st := (sha256K.zip ws).foldl sha256Round h
  (h.zip st).map fun p => w32 (p.1 + p.2)

/-- Big-endian bytes of a 64-bit length field. -/
def be64 (n : Nat) : List Nat :=
  [n >>> 56 % 256, n >>> 48 % 256, n >>> 40 % 256, n >>> 32 % 256,
   n >>> 24 % 256, n >>> 16 % 256, n >>> 8 % 256, n % 256]

/-- SHA-256 padding: append the 0x80 byte, zeros to 56 mod 64, then
the bit length as eight big-endian bytes. -/
def sha256Pad (msg : List Nat) : List Nat :=
  let L := msg.length
  msg ++ [128] ++ List.replicate ((119 - L % 64) % 64) 0 ++ be64 (L * 8)

/-- Pack big-endian bytes into 32-bit words. -/
def bytesToWords : List Nat → List Nat
  | b0 :: b1 :: b2 :: b3 :: t => (b0 * 16777216 + b1 * 65536 + b2 * 256 + b3) :: bytesToWords t
  | _ => []

/-- Chop a word list into 16-word blocks. -/
def wordsToBlocks : List Nat → List (List Nat)
  | w0 :: w1 :: w2 :: w3 :: w4 :: w5 :: w6 :: w7 ::
      w8 :: w9 :: w10 :: w11 :: w12 :: w13 :: w14 :: w15 :: t =>
    [w0, w1, w2, w3, w4, w5, w6, w7, w8, w9, w10, w11, w12, w13, w14, w15] :: wordsToBlocks t
  | _ => []

/-- The SHA-256 digest of a byte list, as 32 bytes. -/
def sha256Bytes (msg : List Nat) : List Nat :=
  let blocks := wordsToBlocks (bytesToWords (sha256Pad msg))
  let h := blocks.foldl sha256Compress sha256H0
  (h.map fun w => [w >>> 24 % 256, w >>> 16 % 256, w >>> 8 % 256, w % 256]).flatten

/-- One lowercase hexadecimal digit. -/
def hexDigit (n : Nat) : Char :=
  "0123456789abcdef".data.getD n 'x'

/-- Lowercase hexadecimal rendering of a byte list. -/
def hexOfBytes (bs : List Nat) : String :=
  String.mk ((bs.map fun b => [hexDigit (b / 16), hexDigit (b % 16)]).flatten)

/-- jd_hash_func (analyse_pdf.py lines 20-21): the SHA-256 hex digest
of the UTF-8 encoded text.  A Python None argument reaches the hash as
the empty string. -/
def jd_hash_func (text : String) : String :=
  hexOfBytes (sha256Bytes (utf8Encode text))

/-- Embedding vectors, as produced by the sentence-transformer model
for the pair of cleaned texts. -/
abbrev Emb := List ℚ

/-- The external collaborators of analyse_resume_st, injected: the
role-skill directory lookup (get_role_skills_dict, which always
returns a three-bucket record), the embedding call model.encode on the
pair of cleaned texts (line 63, not guarded by the try block), and the
cosine-similarity computation of line 66 (guarded by the try block of
lines 65-68).  A failing external call is an error value. -/
structure Deps where
  lookup : String → RoleSkills
  encode : String → String → Except Unit (Emb × Emb)
  cosine : Emb × Emb → Except Unit ℚ

/-- Resolution of the role argument (line 48): a missing or empty role
string falls back to the generic role name. -/
def resolveRole (role : Option String) : String :=
  match role with
  | none => "Software Developer (Generic)"
  | some r => if r = "" then "Software Developer (Generic)" else r

/-- Resolution of the role skill buckets (lines 49-54): take the
lookup for the resolved role; if all three buckets are empty, look up
the generic role and use it when it has any skills. -/
def resolveSkills (lookup : String → RoleSkills) (role_key : String) : RoleSkills :=
  let role_skills := lookup role_key
  if role_skills.hasAny then role_skills
  else
    let generic := lookup "Software Developer (Generic)"
    if generic.hasAny then generic else role_skills

/-- The pure scoring body of analyse_resume_st (lines 56-143), given
the resolved skill buckets, the resolved role name, the cleaned texts
and the similarity value that survived the try block. -/
def scoreFrom (role_skills : RoleSkills) (role_key resume_text jd_text : String) (sim : ℚ) :
    ScoreResult :=
  let core_required := role_skills.core
  let tools_required := role_skills.tools
  let soft_required := role_skills.soft
  let resume_tokens := extract_tokens resume_text
  let jd_tokens := extract_tokens jd_text
  let experience_score := round2 (sim * 100)
  let jd_core_overlap := core_required ∩ jd_tokens
  let jd_tools_overlap := tools_required ∩ jd_tokens
  let tech_required := if jd_core_overlap.Nonempty then jd_core_overlap else core_required
  let tools_required_final := if jd_tools_overlap.Nonempty then jd_tools_overlap else tools_required
  let technical_score := compute_presence_score tech_required resume_tokens
  let tools_score := compute_presence_score tools_required_final resume_tokens
  let soft_score := compute_presence_score soft_required resume_tokens
  let overall := round2
    (technical_score * (45 / 100) + experience_score * (30 / 100) +
      tools_score * (15 / 100) + soft_score * (10 / 100))
  let matching_core := sortedList (tech_required ∩ resume_tokens)
  let matching_tools := sortedList (tools_required_final ∩ resume_tokens)
  let matching_soft := sortedList (soft_required ∩ resume_tokens)
  let missing_core := sortedList (tech_required \ resume_tokens)
  let missing_tools := sortedList (tools_required_final \ resume_tokens)
  let missing_soft := sortedList (soft_required \ resume_tokens)
  { raw_text := renderReport role_key overall technical_score experience_score tools_score
      soft_score matching_core matching_tools matching_soft missing_core missing_tools
  , overall := overall
  , technical := technical_score
  , experience := experience_score
  , tools := tools_score
  , soft := soft_score
  , matching_core := matching_core
  , matching_tools := matching_tools
  , matching_soft := matching_soft
  , missing_core := missing_core
  , missing_tools := missing_tools
  , missing_soft := missing_soft
  , model_version := MODEL_VERSION
  , jd_hash := jd_hash_func jd_text }

/-- analyse_resume_st (analyse_pdf.py lines 44-143).  The texts are
cleaned, the role and its skill buckets resolved, then the embedding
call runs outside any exception handler: its failure propagates.  The
cosine-similarity step is inside the try block: its failure is
absorbed, leaving the similarity initialised to zero (line 64). -/
def analyse_resume_st (deps : Deps) (resume_content : String) (job_description : Option String)
    (role : Option String) : Except Unit ScoreResult :=
  let resume_text := clean_text resume_content
  let jd_text := clean_text (job_description.getD "")
  let role_key := resolveRole role
  let role_skills := resolveSkills deps.lookup role_key
  (deps.encode resume_text jd_text).map fun emb =>
    let sim : ℚ := match deps.cosine emb with
      | Except.ok s => s
      | Except.error _ => 0
    scoreFrom role_skills role_key resume_text jd_text sim

/-- Outcome of the cache consultation step in app.py. -/
structure CacheOutcome where
  analysis : ScoreResult
  cached : Bool
  wrote : Bool
deriving DecidableEq

/-- The cache substitution step of app.py lines 104-118: on a hit the
cached score replaces the freshly computed overall and nothing is
saved; on a miss the fresh record is kept and saved. -/
def applyCache (analysis : ScoreResult) (cached_score : Option ℚ) : CacheOutcome :=
  match cached_score with
  | some cs => { analysis := { analysis with overall := cs }, cached := true, wrote := false }
  | none => { analysis := analysis, cached := false, wrote := true }

/-- The cache key used by get_cached_score and save_score
(db_mysql.py lines 137-142): resume hash, job-description hash, role
and model version. -/
def cacheKey (resume_hash jd_hash role model_version : String) :
    String × String × String × String :=
  (resume_hash, jd_hash, role, model_version)

/-- A default record, used only to give Except projections a total
unwrapping below. -/
def defaultResult : ScoreResult :=
  { raw_text := "", overall := 0, technical := 0, experience := 0, tools := 0, soft := 0
  , matching_core := [], matching_tools := [], matching_soft := []
  , missing_core := [], missing_tools := [], missing_soft := []
  , model_version := "", jd_hash := "" }

/-- Unwrap a scoring outcome, with an inert default on error. -/
def exceptGet (e : Except Unit ScoreResult) : ScoreResult :=
  match e with
  | Except.ok r => r
  | Except.error _ => defaultResult

-- The rational operations ship marked irreducible, which blocks the
-- kernel evaluation used to check concrete scores; restore the default
-- reducibility so that decide can compute with exact rationals.
set_option allowUnsafeReducibility true in
attribute [semireducible] Rat.mul Rat.add Rat.sub Rat.inv

/-- Space-join a list of character lists, as the Python expression
joining set elements with a single space. -/
def joinChars : List (List Char) → List Char
  | [] => []
  | [w] => w
  | w :: v :: rest => w ++ ' ' :: joinChars (v :: rest)

/-- Space-join a list of strings. -/
def joinWords (L : List String) : String :=
  String.mk (joinChars (L.map String.data))

/-- The all-empty skill record. -/
def emptySkills : RoleSkills := { core := ∅, tools := ∅, soft := ∅ }

/-- Benign dependencies: an empty directory, an embedding call that
succeeds with empty vectors, a similarity of zero. -/
def d0 : Deps :=
  { lookup := fun _ => emptySkills
  , encode := fun _ _ => Except.ok ([], [])
  , cosine := fun _ => Except.ok 0 }

/-- Dependencies whose embedding call itself raises. -/
def depsEncFail : Deps :=
  { lookup := fun _ => emptySkills
  , encode := fun _ _ => Except.error ()
  , cosine := fun _ => Except.ok 0 }

/-- Dependencies whose embedding call succeeds but whose
cosine-similarity computation raises. -/
def depsCosFail : Deps :=
  { lookup := fun _ => emptySkills
  , encode := fun _ _ => Except.ok ([], [])
  , cosine := fun _ => Except.error () }

/-- The role directory of concrete scenario A. -/
def depsA : Deps :=
  { lookup := fun _ => { core := {"python", "sql"}, tools := ∅, soft := {"communication"} }
  , encode := fun _ _ => Except.ok ([], [])
  , cosine := fun _ => Except.ok (4 / 5) }

/-- Scenario A resume text. -/
def rcA : String := "I have 3 years of Python and SQL experience"

/-- Scenario A job description. -/
def jdA : Option String := some "Looking for Python, SQL, and communication skills"

/-- Scenario A role argument. -/
def roleA : Option String := some "Data Analyst"

/-- The scenario A result record. -/
def rA : ScoreResult := exceptGet (analyse_resume_st depsA rcA jdA roleA)

/-- A benign concrete result used by several witnesses. -/
def r0 : ScoreResult := exceptGet (analyse_resume_st d0 "" (some "") none)

/-- Concrete results for the whitespace-insensitivity witness. -/
def rJ1 : ScoreResult := exceptGet (analyse_resume_st d0 "cv" (some "a  b") none)

/-- Second record of that witness, for the whitespace variant text. -/
def rJ2 : ScoreResult := exceptGet (analyse_resume_st d0 "cv" (some " a b\n") none)


/-- When the embedding call succeeds, analyse_resume_st returns the
record computed by scoreFrom on the resolved role and skills, with the
similarity surviving the guarded cosine step. -/
theorem analyse_eq_ok (deps : Deps) (rc : String) (jd role : Option String) (emb : Emb × Emb)
    (henc : deps.encode (clean_text rc) (clean_text (jd.getD "")) = Except.ok emb) :
    analyse_resume_st deps rc jd role =
      Except.ok (scoreFrom (resolveSkills deps.lookup (resolveRole role)) (resolveRole role)
        (clean_text rc) (clean_text (jd.getD ""))
        (match deps.cosine emb with
          | Except.ok s => s
          | Except.error _ => 0)) := by
  simp only [analyse_resume_st]
  rw [henc]
  rfl

/-- The scenario A record is what analyse_resume_st returns there. -/
theorem analyseA_eq : analyse_resume_st depsA rcA jdA roleA = Except.ok rA := by
  have h := analyse_eq_ok depsA rcA jdA roleA ([], []) rfl
  unfold rA
  rw [h]
  rfl

/-- The benign record r0 is what analyse_resume_st returns there. -/
theorem analyse0_eq : analyse_resume_st d0 "" (some "") none = Except.ok r0 := by
  have h := analyse_eq_ok d0 "" (some "") none ([], []) rfl
  unfold r0
  rw [h]
  rfl

/-- C3: the overall score of the record produced by analyse_resume_st
(before any cache substitution) is the two-decimal rounding of the
weighted sum 0.45 technical + 0.30 experience + 0.15 tools +
0.10 soft of the four category scores in the same record. -/
theorem c3_overall_weighted_sum (deps : Deps) (rc : String) (jd role : Option String)
    (r : ScoreResult) (h : analyse_resume_st deps rc jd role = Except.ok r) :
    r.overall = round2 ((45 / 100) * r.technical + (30 / 100) * r.experience +
      (15 / 100) * r.tools + (10 / 100) * r.soft) := by
  cases henc : deps.encode (clean_text rc) (clean_text (jd.getD "")) with
  | error e =>
    simp only [analyse_resume_st] at h
    rw [henc] at h
    simp [Except.map] at h
  | ok emb =>
    rw [analyse_eq_ok deps rc jd role emb henc, Except.ok.injEq] at h
    subst h
    simp only [scoreFrom]
    refine congrArg round2 ?_
    ring

/-- Witness for C3 at concrete scenario A. -/
theorem c3_overall_weighted_sum_witness :
    analyse_resume_st depsA rcA jdA roleA = Except.ok rA ∧
    rA.overall = round2 ((45 / 100) * rA.technical + (30 / 100) * rA.experience +
      (15 / 100) * rA.tools + (10 / 100) * rA.soft) :=
  ⟨analyseA_eq, c3_overall_weighted_sum depsA rcA jdA roleA rA analyseA_eq⟩

/-- C7: on a cache hit, only the overall field of the freshly computed
record is replaced by the cached score; every other field keeps its
freshly computed value, and no cache write is performed. -/
theorem c7_cache_hit_replaces_only_overall (a : ScoreResult) (c : ℚ) :
    (applyCache a (some c)).analysis.overall = c ∧
    (applyCache a (some c)).analysis.raw_text = a.raw_text ∧
    (applyCache a (some c)).analysis.technical = a.technical ∧
    (applyCache a (some c)).analysis.experience = a.experience ∧
    (applyCache a (some c)).analysis.tools = a.tools ∧
    (applyCache a (some c)).analysis.soft = a.soft ∧
    (applyCache a (some c)).analysis.matching_core = a.matching_core ∧
    (applyCache a (some c)).analysis.matching_tools = a.matching_tools ∧
    (applyCache a (some c)).analysis.matching_soft = a.matching_soft ∧
    (applyCache a (some c)).analysis.missing_core = a.missing_core ∧
    (applyCache a (some c)).analysis.missing_tools = a.missing_tools ∧
    (applyCache a (some c)).analysis.missing_soft = a.missing_soft ∧
    (applyCache a (some c)).analysis.model_version = a.model_version ∧
    (applyCache a (some c)).analysis.jd_hash = a.jd_hash ∧
    (applyCache a (some c)).wrote = false ∧
    (applyCache a (some c)).cached = true :=
  ⟨rfl, rfl, rfl, rfl, rfl, rfl, rfl, rfl, rfl, rfl, rfl, rfl, rfl, rfl, rfl, rfl⟩

/-- C8: concrete scenario A.  With role buckets core python and sql,
no tools, soft communication, and a mocked similarity of 0.8, the
returned record has technical 100, tools 0, soft 0, experience 80 and
overall 69. -/
theorem c8_concrete_scenario_a :
    analyse_resume_st depsA rcA jdA roleA = Except.ok rA ∧
    rA.technical = 100 ∧ rA.tools = 0 ∧ rA.soft = 0 ∧
    rA.experience = 80 ∧ rA.overall = 69 :=
  ⟨analyseA_eq, by decide, by decide, by decide, by decide, by decide⟩

/-- An all-empty skill record is exactly one with no bucket members. -/
theorem hasAny_false_iff (rs : RoleSkills) : rs.hasAny = false ↔ rs = emptySkills := by
  constructor
  · intro h
    have h2 : ¬ (rs.core.Nonempty ∨ rs.tools.Nonempty ∨ rs.soft.Nonempty) := by
      simpa [RoleSkills.hasAny] using h
    push_neg at h2
    obtain ⟨h2, h3, h4⟩ := h2
    obtain ⟨c, t, s⟩ := rs
    simp only [emptySkills, RoleSkills.mk.injEq]
    exact ⟨Finset.not_nonempty_iff_eq_empty.mp h2, Finset.not_nonempty_iff_eq_empty.mp h3,
      Finset.not_nonempty_iff_eq_empty.mp h4⟩
  · intro h
    subst h
    decide

set_option linter.unnecessarySeqFocus false in
/-- C9: when the directory lookup for the resolved role is all-empty,
analyse_resume_st computes with the skill buckets of the default role
Software Developer (Generic); when that lookup is also all-empty, the
call still succeeds whenever the embedding call does, with zero
technical, tools and soft scores, empty matching and missing lists,
and overall equal to the rounded 0.30 share of the experience
score. -/
theorem c9_generic_fallback (deps : Deps) (rc : String) (jd role : Option String)
    (hempty : (deps.lookup (resolveRole role)).hasAny = false) :
    analyse_resume_st deps rc jd role =
      (deps.encode (clean_text rc) (clean_text (jd.getD ""))).map (fun emb =>
        scoreFrom (deps.lookup "Software Developer (Generic)") (resolveRole role)
          (clean_text rc) (clean_text (jd.getD ""))
          (match deps.cosine emb with
            | Except.ok s => s
            | Except.error _ => 0)) ∧
    ((deps.lookup "Software Developer (Generic)").hasAny = false →
      ∀ r, analyse_resume_st deps rc jd role = Except.ok r →
        r.technical = 0 ∧ r.tools = 0 ∧ r.soft = 0 ∧
        r.matching_core = [] ∧ r.matching_tools = [] ∧ r.matching_soft = [] ∧
        r.missing_core = [] ∧ r.missing_tools = [] ∧ r.missing_soft = [] ∧
        r.overall = round2 (r.experience * (30 / 100))) := by
  have hskills : resolveSkills deps.lookup (resolveRole role) =
      deps.lookup "Software Developer (Generic)" := by
    rw [resolveSkills]
    simp only [hempty, Bool.false_eq_true, if_false]
    by_cases hg : (deps.lookup "Software Developer (Generic)").hasAny
    · simp [hg]
    · have hg2 : (deps.lookup "Software Developer (Generic)").hasAny = false := by
        simpa using hg
      rw [(hasAny_false_iff _).mp hempty, (hasAny_false_iff _).mp hg2]
      simp
  constructor
  · simp only [analyse_resume_st, hskills]
  · intro hg r hr
    have hgeq := (hasAny_false_iff _).mp hg
    cases henc : deps.encode (clean_text rc) (clean_text (jd.getD "")) with
    | error e =>
      rw [analyse_resume_st] at hr
      rw [henc] at hr
      simp [Except.map] at hr
    | ok emb =>
      rw [analyse_eq_ok deps rc jd role emb henc, Except.ok.injEq] at hr
      subst hr
      rw [hskills, hgeq]
      refine ⟨?_, ?_, ?_, ?_, ?_, ?_, ?_, ?_, ?_, ?_⟩ <;>
        simp only [scoreFrom, emptySkills, compute_presence_score, sortedList,
          Finset.empty_inter, Finset.not_nonempty_empty, if_false, if_true,
          eq_self_iff_true, Finset.empty_sdiff, Finset.sort_empty] <;>
        first
        | rfl
        | exact congrArg round2 (by ring)

/-- Witness for C9: the empty directory of the benign dependencies. -/
theorem c9_generic_fallback_witness :
    (d0.lookup (resolveRole none)).hasAny = false ∧
    r0.technical = 0 ∧ r0.overall = round2 (r0.experience * (30 / 100)) := by
  have h := c9_generic_fallback d0 "" (some "") none (by decide)
  have h2 := h.2 (by decide) r0 analyse0_eq
  exact ⟨by decide, h2.1, h2.2.2.2.2.2.2.2.2.2⟩

/-- The whitespace-witness record rJ1 is what analyse_resume_st
returns there. -/
theorem analyseJ1_eq : analyse_resume_st d0 "cv" (some "a  b") none = Except.ok rJ1 := by
  have h := analyse_eq_ok d0 "cv" (some "a  b") none ([], []) rfl
  unfold rJ1
  rw [h]
  rfl

/-- The whitespace-witness record rJ2 is what analyse_resume_st
returns there. -/
theorem analyseJ2_eq : analyse_resume_st d0 "cv" (some " a b\n") none = Except.ok rJ2 := by
  have h := analyse_eq_ok d0 "cv" (some " a b\n") none ([], []) rfl
  unfold rJ2
  rw [h]
  rfl

/-- C10: two job-description strings with the same
whitespace-collapsed, stripped form receive the same jd_hash, hence
the same cache key for any fixed resume hash and model version. -/
theorem c10_cleaned_jd_same_hash (deps : Deps) (rc j1 j2 : String) (role : Option String)
    (r1 r2 : ScoreResult) (hclean : clean_text j1 = clean_text j2)
    (h1 : analyse_resume_st deps rc (some j1) role = Except.ok r1)
    (h2 : analyse_resume_st deps rc (some j2) role = Except.ok r2) :
    r1.jd_hash = r2.jd_hash ∧
    ∀ rh mv, cacheKey rh r1.jd_hash (role.getD "") mv = cacheKey rh r2.jd_hash (role.getD "") mv := by
  have heq : analyse_resume_st deps rc (some j1) role = analyse_resume_st deps rc (some j2) role := by
    simp only [analyse_resume_st, Option.getD]
    rw [hclean]
  rw [heq, h2, Except.ok.injEq] at h1
  subst h1
  exact ⟨rfl, fun _ _ => rfl⟩

/-- Witness for C10 on texts differing only in whitespace runs. -/
theorem c10_cleaned_jd_same_hash_witness :
    clean_text "a  b" = clean_text " a b\n" ∧ rJ1.jd_hash = rJ2.jd_hash :=
  ⟨by decide,
    (c10_cleaned_jd_same_hash d0 "cv" "a  b" " a b\n" none rJ1 rJ2 (by decide)
      analyseJ1_eq analyseJ2_eq).1⟩

/-- C6: the jd_hash field is the SHA-256 hex digest of the cleaned
job-description text; equal cleaned texts yield equal digests; and the
cleaned empty text hashes to the digest of the empty byte string. -/
theorem c6_jd_hash_sha256 :
    (∀ (deps : Deps) (rc : String) (jd role : Option String) (r : ScoreResult),
      analyse_resume_st deps rc jd role = Except.ok r →
        r.jd_hash = jd_hash_func (clean_text (jd.getD ""))) ∧
    (∀ t1 t2 : String, clean_text t1 = clean_text t2 →
      jd_hash_func (clean_text t1) = jd_hash_func (clean_text t2)) ∧
    jd_hash_func (clean_text "") =
      "e3b0c44298fc1c149afbf4c8996fb92427ae41e4649b934ca495991b7852b855" := by
  refine ⟨?_, ?_, by decide⟩
  · intro deps rc jd role r h
    cases henc : deps.encode (clean_text rc) (clean_text (jd.getD "")) with
    | error e =>
      rw [analyse_resume_st] at h
      rw [henc] at h
      simp [Except.map] at h
    | ok emb =>
      rw [analyse_eq_ok deps rc jd role emb henc, Except.ok.injEq] at h
      subst h
      rfl
  · intro t1 t2 h
    rw [h]

/-- Witness for C6 at the benign concrete call. -/
theorem c6_jd_hash_sha256_witness :
    analyse_resume_st d0 "" (some "") none = Except.ok r0 ∧
    r0.jd_hash = jd_hash_func (clean_text "") :=
  ⟨analyse0_eq, c6_jd_hash_sha256.1 d0 "" (some "") none r0 analyse0_eq⟩

/-- Every token kept by the token loop arises from a non-empty
fragment, equals that fragment with surrounding punctuation stripped,
and is not a stopword. -/
theorem tokenLoop_mem {frs : List (List Char)} {w : List Char} (h : w ∈ tokenLoop frs) :
    ∃ w', w' ∈ frs ∧ w' ≠ [] ∧ w = stripEnds isStripPunct w' ∧ String.mk w ∉ STOPWORDS := by
  induction frs with
  | nil => simp [tokenLoop] at h
  | cons f rest ih =>
    simp only [tokenLoop] at h
    split at h
    · obtain ⟨w', hm, hp⟩ := ih h
      exact ⟨w', List.mem_cons_of_mem _ hm, hp⟩
    · rename_i hf
      split at h
      · obtain ⟨w', hm, hp⟩ := ih h
        exact ⟨w', List.mem_cons_of_mem _ hm, hp⟩
      · rename_i hs
        rcases List.mem_cons.mp h with h1 | h1
        · subst h1
          exact ⟨f, List.mem_cons_self _ _, hf, rfl, hs⟩
        · obtain ⟨w', hm, hp⟩ := ih h1
          exact ⟨w', List.mem_cons_of_mem _ hm, hp⟩

/-- C2 counterexample: the claim says the token set never contains the
empty string, but the text consisting of a lone dot produces exactly
the singleton set of the empty string (the emptiness test runs before
punctuation stripping). -/
theorem c2_empty_token_counterexample :
    "" ∈ extract_tokens "." ∧ extract_tokens "." = {""} :=
  ⟨by decide, by decide⟩

/-- C2 amended: every element of the token set is a non-stopword (the
stopword test is applied to the stripped fragment), though it can be
the empty string when a fragment consists solely of strippable
punctuation. -/
theorem c2_amended_no_stopwords (text : String) (s : String) (hs : s ∈ extract_tokens text) :
    s ∉ STOPWORDS := by
  simp only [extract_tokens, List.mem_toFinset] at hs
  obtain ⟨w, hw, rfl⟩ := List.mem_map.mp hs
  obtain ⟨w', _, _, _, hstop⟩ := tokenLoop_mem hw
  exact hstop

/-- Witness for the amended C2. -/
theorem c2_amended_no_stopwords_witness :
    "python" ∈ extract_tokens "Python developer" ∧ "python" ∉ STOPWORDS :=
  ⟨by decide, c2_amended_no_stopwords "Python developer" "python" (by decide)⟩

/-- C1 counterexample: when the embedding call itself raises, the
exception escapes analyse_resume_st (the model.encode call of line 63
sits outside the try block of lines 65-68), so no ScoreResult is
returned. -/
theorem c1_encode_failure_counterexample :
    analyse_resume_st depsEncFail "resume text" (some "jd text") none = Except.error () := rfl

/-- C1 amended: when the embedding call succeeds and the guarded
cosine-similarity step raises, the failure is absorbed: the similarity
stays 0.0, the experience score is 0.0, and a complete ScoreResult is
returned; this holds for every input text, including empty ones. -/
theorem c1_amended_cosine_failure_absorbed (deps : Deps) (rc : String) (jd role : Option String)
    (emb : Emb × Emb)
    (henc : deps.encode (clean_text rc) (clean_text (jd.getD "")) = Except.ok emb)
    (hcos : deps.cosine emb = Except.error ()) :
    analyse_resume_st deps rc jd role =
      Except.ok (scoreFrom (resolveSkills deps.lookup (resolveRole role)) (resolveRole role)
        (clean_text rc) (clean_text (jd.getD "")) 0) ∧
    (scoreFrom (resolveSkills deps.lookup (resolveRole role)) (resolveRole role)
        (clean_text rc) (clean_text (jd.getD "")) 0).experience = 0 := by
  constructor
  · rw [analyse_eq_ok deps rc jd role emb henc, hcos]
  · show round2 (0 * 100) = 0
    decide

/-- Witness for the amended C1 at a concrete failing cosine call. -/
theorem c1_amended_cosine_failure_absorbed_witness :
    depsCosFail.cosine ([], []) = Except.error () ∧
    analyse_resume_st depsCosFail "" (some "") none =
      Except.ok (scoreFrom (resolveSkills depsCosFail.lookup (resolveRole none)) (resolveRole none)
        (clean_text "") (clean_text ((some "").getD "")) 0) :=
  ⟨rfl, (c1_amended_cosine_failure_absorbed depsCosFail "" (some "") none ([], []) rfl rfl).1⟩

/-- C4: the technical score and core matching/missing lists use the
intersection of the role core set with the job-description tokens when
that intersection is non-empty, and the full core set otherwise; the
same rule applies independently to tools; the soft score and lists
always use the full soft set. -/
theorem c4_jd_restriction (deps : Deps) (rc : String) (jd role : Option String) (r : ScoreResult)
    (h : analyse_resume_st deps rc jd role = Except.ok r)
    (rs : RoleSkills) (hrs : rs = resolveSkills deps.lookup (resolveRole role))
    (R J : Finset String) (hR : R = extract_tokens (clean_text rc))
    (hJ : J = extract_tokens (clean_text (jd.getD ""))) :
    ((rs.core ∩ J).Nonempty →
      r.technical = compute_presence_score (rs.core ∩ J) R ∧
      r.matching_core = sortedList ((rs.core ∩ J) ∩ R) ∧
      r.missing_core = sortedList ((rs.core ∩ J) \ R)) ∧
    (¬ (rs.core ∩ J).Nonempty →
      r.technical = compute_presence_score rs.core R ∧
      r.matching_core = sortedList (rs.core ∩ R) ∧
      r.missing_core = sortedList (rs.core \ R)) ∧
    ((rs.tools ∩ J).Nonempty →
      r.tools = compute_presence_score (rs.tools ∩ J) R ∧
      r.matching_tools = sortedList ((rs.tools ∩ J) ∩ R) ∧
      r.missing_tools = sortedList ((rs.tools ∩ J) \ R)) ∧
    (¬ (rs.tools ∩ J).Nonempty →
      r.tools = compute_presence_score rs.tools R ∧
      r.matching_tools = sortedList (rs.tools ∩ R) ∧
      r.missing_tools = sortedList (rs.tools \ R)) ∧
    (r.soft = compute_presence_score rs.soft R ∧
      r.matching_soft = sortedList (rs.soft ∩ R) ∧
      r.missing_soft = sortedList (rs.soft \ R)) := by
  subst hrs hR hJ
  cases henc : deps.encode (clean_text rc) (clean_text (jd.getD "")) with
  | error e =>
    rw [analyse_resume_st] at h
    rw [henc] at h
    simp [Except.map] at h
  | ok emb =>
    rw [analyse_eq_ok deps rc jd role emb henc, Except.ok.injEq] at h
    subst h
    refine ⟨fun hne => ?_, fun hne => ?_, fun hne => ?_, fun hne => ?_, ?_⟩ <;>
      simp only [scoreFrom]
    · rw [if_pos hne]
      refine ⟨?_, ?_, ?_⟩ <;> trivial
    · rw [if_neg hne]
      refine ⟨?_, ?_, ?_⟩ <;> trivial
    · rw [if_pos hne]
      refine ⟨?_, ?_, ?_⟩ <;> trivial
    · rw [if_neg hne]
      refine ⟨?_, ?_, ?_⟩ <;> trivial
    · refine ⟨?_, ?_, ?_⟩ <;> trivial

/-- Witness for C4 at scenario A, where the core intersection with the
job description is non-empty. -/
theorem c4_jd_restriction_witness :
    ((resolveSkills depsA.lookup (resolveRole roleA)).core ∩
        extract_tokens (clean_text (jdA.getD ""))).Nonempty ∧
    rA.technical = compute_presence_score
      ((resolveSkills depsA.lookup (resolveRole roleA)).core ∩
        extract_tokens (clean_text (jdA.getD "")))
      (extract_tokens (clean_text rcA)) := by
  have hpos : ((resolveSkills depsA.lookup (resolveRole roleA)).core ∩
      extract_tokens (clean_text (jdA.getD ""))).Nonempty := by decide
  exact ⟨hpos,
    ((c4_jd_restriction depsA rcA jdA roleA rA analyseA_eq _ rfl _ _ rfl rfl).1 hpos).1⟩

theorem replaceFuel_nil (pat rep : List Char) (n : Nat) : replaceFuel pat rep n [] = [] := by
  cases n <;> rfl

theorem replaceFuel_congr (pat rep : List Char) :
    ∀ (n m : Nat) (l : List Char), l.length ≤ n → l.length ≤ m →
      replaceFuel pat rep n l = replaceFuel pat rep m l := by
  intro n
  induction n with
  | zero =>
    intro m l hn hm
    have : l = [] := List.length_eq_zero.mp (Nat.le_zero.mp hn)
    subst this
    rw [replaceFuel_nil, replaceFuel_nil]
  | succ k ih =>
    intro m l hn hm
    cases l with
    | nil => rw [replaceFuel_nil, replaceFuel_nil]
    | cons c t =>
      cases m with
      | zero => exact absurd hm (by simp)
      | succ j =>
        simp only [replaceFuel]
        split
        · refine congrArg (rep ++ ·) (ih j _ ?_ ?_) <;>
            simp only [List.length_drop] <;> simp at hn hm <;> omega
        · refine congrArg (c :: ·) (ih j t ?_ ?_) <;> simp at hn hm <;> omega

theorem replaceList_cons_pos {pat : List Char} (rep : List Char) {c : Char} {t : List Char}
    (h : pat ≠ [] ∧ pat <+: (c :: t)) :
    replaceList pat rep (c :: t) = rep ++ replaceList pat rep (t.drop (pat.length - 1)) := by
  rw [replaceList, replaceList, List.length_cons]
  simp only [replaceFuel]
  rw [if_pos h]
  refine congrArg (rep ++ ·) (replaceFuel_congr pat rep _ _ _ ?_ le_rfl)
  simp only [List.length_drop]
  omega

theorem replaceList_cons_neg {pat : List Char} (rep : List Char) {c : Char} {t : List Char}
    (h : ¬ (pat ≠ [] ∧ pat <+: (c :: t))) :
    replaceList pat rep (c :: t) = c :: replaceList pat rep t := by
  rw [replaceList, replaceList, List.length_cons]
  simp only [replaceFuel]
  rw [if_neg h]

theorem infix_of_pre {a b : List Char} (h : a <+: b) : a <:+: b := by
  obtain ⟨t, ht⟩ := h
  exact ⟨[], t, by simpa using ht⟩

theorem infix_of_suf {a b : List Char} (h : a <:+ b) : a <:+: b := by
  obtain ⟨s, hs⟩ := h
  exact ⟨s, [], by simpa using hs⟩

theorem prefix_append_split {p a b : List Char} (h : p <+: a ++ b) :
    p <+: a ∨ ∃ p', p = a ++ p' ∧ p' <+: b := by
  induction a generalizing p with
  | nil => exact Or.inr ⟨p, rfl, h⟩
  | cons c a' ih =>
    rcases List.prefix_cons_iff.mp h with h1 | ⟨t, rfl, ht⟩
    · subst h1
      exact Or.inl List.nil_prefix
    · rcases ih ht with h2 | ⟨p', rfl, hp⟩
      · exact Or.inl (List.cons_prefix_cons.mpr ⟨rfl, h2⟩)
      · exact Or.inr ⟨p', rfl, hp⟩

theorem infix_append_split {q a b : List Char} (h : q <:+: a ++ b) :
    q <:+: a ∨ q <:+: b ∨
      ∃ s u, q = s ++ u ∧ s ≠ [] ∧ u ≠ [] ∧ s <:+ a ∧ u <+: b := by
  induction a generalizing q with
  | nil => exact Or.inr (Or.inl h)
  | cons c a' ih =>
    rcases List.infix_cons_iff.mp h with h1 | h1
    · rcases List.prefix_cons_iff.mp h1 with h2 | ⟨t, rfl, ht⟩
      · subst h2
        exact Or.inl ⟨[], c :: a', rfl⟩
      · rcases prefix_append_split ht with h3 | ⟨p', rfl, hp⟩
        · exact Or.inl (infix_of_pre (List.cons_prefix_cons.mpr ⟨rfl, h3⟩))
        · by_cases hp0 : p' = []
          · subst hp0
            rw [List.append_nil]
            exact Or.inl (infix_of_pre (List.prefix_refl _))
          · refine Or.inr (Or.inr ⟨c :: a', p', ?_, by simp, hp0, List.suffix_refl _, hp⟩)
            simp
    · rcases ih h1 with h2 | h2 | ⟨s, u, hq2, hs0, hu0, hs, hu⟩
      · exact Or.inl (List.infix_cons h2)
      · exact Or.inr (Or.inl h2)
      · exact Or.inr (Or.inr ⟨s, u, hq2, hs0, hu0, hs.trans (List.suffix_cons c a'), hu⟩)

theorem prefix_of_prefix_append {p a b : List Char} (h : p <+: a ++ b) :
    p <+: a ∨ a <+: p := by
  rcases prefix_append_split h with h1 | ⟨p', rfl, _⟩
  · exact Or.inl h1
  · exact Or.inr ⟨p', rfl⟩

theorem replace_occur_main (pat rep q : List Char)
    (hpat : pat ≠ []) (hq : q ≠ [])
    (h2 : ¬ q <:+: rep)
    (h3 : ∀ s ∈ rep.tails, s ≠ [] → ¬ s <+: q)
    (h4 : ∀ j ∈ List.range q.length, 1 ≤ j → ¬ q.drop j <+: rep ∧ ¬ rep <+: q.drop j) :
    ∀ (n : Nat) (l : List Char), l.length ≤ n →
      ((∀ j, 1 ≤ j → j < q.length → q.drop j <+: replaceList pat rep l → q.drop j <+: l) ∧
       ((¬ q <:+: l ∨ q = pat) → ¬ q <:+: replaceList pat rep l)) := by
  intro n
  induction n using Nat.strong_induction_on with
  | _ n ih =>
    intro l hl
    cases l with
    | nil =>
      constructor
      · intro j hj1 hj2 hpre
        rw [replaceList, replaceFuel_nil] at hpre
        have h5 := List.prefix_nil.mp hpre
        have hlen := congrArg List.length h5
        simp only [List.length_drop, List.length_nil] at hlen
        omega
      · intro h0 hocc
        rw [replaceList, replaceFuel_nil] at hocc
        exact hq (List.infix_nil.mp hocc)
    | cons c t =>
      have htn : t.length < n := by simp at hl; omega
      by_cases hm : pat ≠ [] ∧ pat <+: (c :: t)
      · constructor
        · intro j hj1 hj2 hpre
          rw [replaceList_cons_pos rep hm] at hpre
          rcases prefix_of_prefix_append hpre with hc | hc
          · exact absurd hc (h4 j (List.mem_range.mpr hj2) hj1).1
          · exact absurd hc (h4 j (List.mem_range.mpr hj2) hj1).2
        · intro h0
          rw [replaceList_cons_pos rep hm]
          intro hocc
          rcases infix_append_split hocc with hc | hc | ⟨s, u, hq2, hs0, hu0, hs, hu⟩
          · exact h2 hc
          · have hd : (t.drop (pat.length - 1)).length < n := by
              simp only [List.length_drop]
              omega
            refine (ih _ hd _ le_rfl).2 ?_ hc
            rcases h0 with h0 | h0
            · left
              intro h9
              exact h0 (h9.trans ((infix_of_suf (List.drop_suffix _ t)).trans
                (infix_of_suf (List.suffix_cons c t))))
            · right
              exact h0
          · exact h3 s ((List.mem_tails _ _).mpr hs) hs0 ⟨u, hq2.symm⟩
      · constructor
        · intro j hj1 hj2 hpre
          rw [replaceList_cons_neg rep hm] at hpre
          rcases List.prefix_cons_iff.mp hpre with h5 | ⟨u, hq5, hu⟩
          · have hlen := congrArg List.length h5
            simp only [List.length_drop, List.length_nil] at hlen
            omega
          · have hu2 : u = q.drop (j + 1) := by
              have h6 : u = (q.drop j).tail := by rw [hq5]; rfl
              rw [h6, List.tail_drop]
            by_cases hj3 : j + 1 < q.length
            · have h7 := (ih _ htn t le_rfl).1 (j + 1) (by omega) hj3 (hu2 ▸ hu)
              rw [hq5]
              exact List.cons_prefix_cons.mpr ⟨rfl, hu2 ▸ h7⟩
            · have hu0 : u = [] := by
                rw [hu2]
                exact List.drop_eq_nil_of_le (by omega)
              rw [hq5, hu0]
              exact List.cons_prefix_cons.mpr ⟨rfl, List.nil_prefix⟩
        · intro h0
          rw [replaceList_cons_neg rep hm]
          intro hocc
          rcases List.infix_cons_iff.mp hocc with hc | hc
          · rcases List.prefix_cons_iff.mp hc with h5 | ⟨u, hq5, hu⟩
            · exact hq h5
            · have hu1 : u = q.drop 1 := by
                have h6 : u = q.tail := by rw [hq5]; rfl
                rw [h6, ← List.drop_one]
              have h7 : q <+: c :: t := by
                by_cases hlen : 1 < q.length
                · have h8 := (ih _ htn t le_rfl).1 1 le_rfl hlen (hu1 ▸ hu)
                  rw [hq5]
                  exact List.cons_prefix_cons.mpr ⟨rfl, hu1 ▸ h8⟩
                · have hu0 : u = [] := by
                    rw [hu1]
                    exact List.drop_eq_nil_of_le (by omega)
                  rw [hq5, hu0]
                  exact List.cons_prefix_cons.mpr ⟨rfl, List.nil_prefix⟩
              rcases h0 with h0 | h0
              · exact h0 (infix_of_pre h7)
              · exact hm ⟨hpat, h0 ▸ h7⟩
          · refine (ih _ htn t le_rfl).2 ?_ hc
            rcases h0 with h0 | h0
            · left
              exact fun h9 => h0 (List.infix_cons h9)
            · right
              exact h0

theorem replace_no_reoccur_react (l : List Char) :
    ¬ "react.js".data <:+: replaceList "react.js".data "reactjs".data l :=
  (replace_occur_main "react.js".data "reactjs".data "react.js".data
    (by decide) (by decide) (by decide) (by decide) (by decide)
    l.length l le_rfl).2 (Or.inr rfl)

theorem replace_no_reoccur_node (l : List Char) :
    ¬ "node.js".data <:+: replaceList "node.js".data "nodejs".data l :=
  (replace_occur_main "node.js".data "nodejs".data "node.js".data
    (by decide) (by decide) (by decide) (by decide) (by decide)
    l.length l le_rfl).2 (Or.inr rfl)

theorem replace_preserves_no_react (l : List Char) (h : ¬ "react.js".data <:+: l) :
    ¬ "react.js".data <:+: replaceList "node.js".data "nodejs".data l :=
  (replace_occur_main "node.js".data "nodejs".data "react.js".data
    (by decide) (by decide) (by decide) (by decide) (by decide)
    l.length l le_rfl).2 (Or.inl h)

theorem replace_eq_self_of_no_occur (pat rep : List Char) :
    ∀ l, ¬ pat <:+: l → replaceList pat rep l = l := by
  intro l
  induction l with
  | nil => intro _; rfl
  | cons c t ih =>
    intro h
    rw [replaceList_cons_neg rep (fun hp => h (infix_of_pre hp.2))]
    exact congrArg (c :: ·) (ih (fun h9 => h (List.infix_cons h9)))

theorem splitFrags_head : ∀ (l f : List Char) (fs : List (List Char)),
    splitFrags l = f :: fs → f <+: l ∧ ∀ c ∈ f, isKeep c := by
  intro l
  induction l with
  | nil =>
    intro f fs h
    simp only [splitFrags] at h
    obtain ⟨rfl, -⟩ := List.cons.injEq .. |>.mp h.symm
    exact ⟨List.nil_prefix, by simp⟩
  | cons c t ih =>
    intro f fs h
    simp only [splitFrags] at h
    by_cases hk : isKeep c
    · rw [if_pos hk] at h
      cases hst : splitFrags t with
      | nil =>
        rw [hst] at h
        injection h with h1 h2
        subst h1
        exact ⟨⟨t, rfl⟩, by simpa using hk⟩
      | cons f' fs' =>
        rw [hst] at h
        injection h with h1 h2
        subst h1
        obtain ⟨hp, hk'⟩ := ih f' fs' hst
        refine ⟨List.cons_prefix_cons.mpr ⟨rfl, hp⟩, ?_⟩
        intro x hx
        rcases List.mem_cons.mp hx with rfl | hx
        · exact hk
        · exact hk' x hx
    · rw [if_neg hk] at h
      injection h with h1 h2
      subst h1
      exact ⟨List.nil_prefix, by simp⟩

theorem splitFrags_sound : ∀ (l w : List Char), w ∈ splitFrags l →
    (∀ c ∈ w, isKeep c) ∧ w <:+: l := by
  intro l
  induction l with
  | nil =>
    intro w hw
    simp only [splitFrags, List.mem_singleton] at hw
    subst hw
    exact ⟨by simp, ⟨[], [], rfl⟩⟩
  | cons c t ih =>
    intro w hw
    simp only [splitFrags] at hw
    by_cases hk : isKeep c
    · rw [if_pos hk] at hw
      cases hst : splitFrags t with
      | nil =>
        rw [hst] at hw
        simp only [List.mem_singleton] at hw
        subst hw
        exact ⟨by simpa using hk, infix_of_pre ⟨t, rfl⟩⟩
      | cons f' fs' =>
        rw [hst] at hw
        rcases List.mem_cons.mp hw with rfl | hmem
        · obtain ⟨hp, hk'⟩ := splitFrags_head t f' fs' hst
          refine ⟨?_, infix_of_pre (List.cons_prefix_cons.mpr ⟨rfl, hp⟩)⟩
          intro x hx
          rcases List.mem_cons.mp hx with rfl | hx
          · exact hk
          · exact hk' x hx
        · have hw' : w ∈ splitFrags t := by rw [hst]; exact List.mem_cons_of_mem _ hmem
          obtain ⟨h1, h2⟩ := ih w hw'
          exact ⟨h1, List.infix_cons h2⟩
    · rw [if_neg hk] at hw
      rcases List.mem_cons.mp hw with rfl | hmem
      · exact ⟨by simp, ⟨[], c :: t, rfl⟩⟩
      · obtain ⟨h1, h2⟩ := ih w hmem
        exact ⟨h1, List.infix_cons h2⟩

theorem head_dropWhile_false (p : Char → Bool) :
    ∀ (l : List Char) (x : Char), (l.dropWhile p).head? = some x → p x = false := by
  intro l
  induction l with
  | nil => intro x h; simp at h
  | cons c t ih =>
    intro x h
    by_cases hc : p c
    · rw [List.dropWhile_cons_of_pos hc] at h
      exact ih x h
    · rw [List.dropWhile_cons_of_neg hc] at h
      simp only [List.head?_cons, Option.some.injEq] at h
      subst h
      simpa using hc

theorem getLast_dropWhile_eq (p : Char → Bool) (l : List Char) (h : l.dropWhile p ≠ []) :
    (l.dropWhile p).getLast? = l.getLast? := by
  obtain ⟨pre, hpre⟩ := List.dropWhile_suffix p (l := l)
  conv_rhs => rw [← hpre]
  rw [List.getLast?_append]
  cases hx : (l.dropWhile p).getLast? with
  | none => exact absurd (List.getLast?_eq_none_iff.mp hx) h
  | some x => simp

theorem stripEnds_infix_self (p : Char → Bool) (l : List Char) : stripEnds p l <:+: l := by
  rw [stripEnds, dropWhileRight]
  refine (infix_of_pre ?_).trans (infix_of_suf (List.dropWhile_suffix p))
  conv_rhs => rw [← List.reverse_reverse (l.dropWhile p)]
  exact List.reverse_prefix.mpr (List.dropWhile_suffix p)

theorem stripEnds_head (p : Char → Bool) (l : List Char) (x : Char)
    (h : (stripEnds p l).head? = some x) : p x = false := by
  rw [stripEnds, dropWhileRight] at h
  rw [List.head?_reverse] at h
  have hne : ((l.dropWhile p).reverse.dropWhile p) ≠ [] := by
    intro h0
    rw [h0] at h
    simp at h
  rw [getLast_dropWhile_eq p _ hne, List.getLast?_reverse] at h
  exact head_dropWhile_false p l x h

theorem stripEnds_last (p : Char → Bool) (l : List Char) (x : Char)
    (h : (stripEnds p l).getLast? = some x) : p x = false := by
  rw [stripEnds, dropWhileRight, List.getLast?_reverse] at h
  exact head_dropWhile_false p _ x h

theorem stripEnds_eq_self (p : Char → Bool) (l : List Char)
    (h1 : ∀ x, l.head? = some x → p x = false)
    (h2 : ∀ x, l.getLast? = some x → p x = false) : stripEnds p l = l := by
  cases l with
  | nil => rfl
  | cons c t =>
    have hc : p c = false := h1 c rfl
    rw [stripEnds, List.dropWhile_cons_of_neg (by simp [hc]), dropWhileRight]
    cases hrev : (c :: t).reverse with
    | nil => exact absurd (congrArg List.length hrev) (by simp)
    | cons y ys =>
      have hy : p y = false := by
        refine h2 y ?_
        rw [← List.head?_reverse, hrev]
        rfl
      rw [List.dropWhile_cons_of_neg (by simp [hy]), ← hrev, List.reverse_reverse]

theorem stripEnds_idem (p : Char → Bool) (l : List Char) :
    stripEnds p (stripEnds p l) = stripEnds p l :=
  stripEnds_eq_self p _ (stripEnds_head p l) (stripEnds_last p l)

theorem keep_ne_space {c : Char} (h : isKeep c) : c ≠ ' ' := by
  intro he
  subst he
  exact absurd h (by decide)

theorem keep_not_ws {c : Char} (h : isKeep c) : isWs c = false := by
  simp only [isKeep, decide_eq_true_eq] at h
  simp only [isWs, decide_eq_false_iff_not]
  omega

theorem keep_not_bullet {c : Char} (h : isKeep c) : isBullet c = false := by
  simp only [isKeep, decide_eq_true_eq] at h
  simp only [isBullet, decide_eq_false_iff_not]
  omega

theorem keep_lower_fix {c : Char} (h : isKeep c) : lowerChar c = c := by
  simp only [isKeep, decide_eq_true_eq] at h
  rw [lowerChar, if_neg]
  omega

theorem map_eq_self_of_fix {f : Char → Char} :
    ∀ (l : List Char), (∀ c ∈ l, f c = c) → l.map f = l := by
  intro l
  induction l with
  | nil => intro _; rfl
  | cons c t ih =>
    intro h
    rw [List.map_cons, h c (List.mem_cons_self c t), ih (fun x hx => h x (List.mem_cons_of_mem _ hx))]

theorem collapseSpaces_eq_self :
    ∀ (l : List Char), List.Chain' (fun a b => ¬ (a = ' ' ∧ b = ' ')) l →
      collapseSpaces l = l := by
  intro l
  induction l with
  | nil => intro _; rfl
  | cons a t ih =>
    intro h
    cases t with
    | nil => rfl
    | cons b t' =>
      obtain ⟨h1, h2⟩ := List.chain'_cons.mp h
      rw [collapseSpaces, if_neg h1]
      exact congrArg (a :: ·) (ih h2)

theorem chain_append_no_space (w x : List Char)
    (hw : ∀ c ∈ w, c ≠ ' ') (hx : List.Chain' (fun a b => ¬ (a = ' ' ∧ b = ' ')) x) :
    List.Chain' (fun a b => ¬ (a = ' ' ∧ b = ' ')) (w ++ x) := by
  induction w with
  | nil => exact hx
  | cons c w' ih =>
    rw [List.cons_append]
    refine List.chain'_cons'.mpr ⟨?_, ih (fun y hy => hw y (List.mem_cons_of_mem _ hy))⟩
    intro y _
    exact fun hcon => (hw c (List.mem_cons_self c w')) hcon.1

theorem joinChars_cons_cons (w v : List Char) (rest : List (List Char)) :
    joinChars (w :: v :: rest) = w ++ ' ' :: joinChars (v :: rest) := rfl

theorem joinChars_ne_nil {v : List Char} (rest : List (List Char)) (hv : v ≠ []) :
    joinChars (v :: rest) ≠ [] := by
  cases rest with
  | nil => exact hv
  | cons u rest' =>
    rw [joinChars_cons_cons]
    simp [hv]

theorem joinChars_head {v : List Char} (rest : List (List Char)) (hv : v ≠ []) :
    (joinChars (v :: rest)).head? = v.head? := by
  cases rest with
  | nil => rfl
  | cons u rest' =>
    rw [joinChars_cons_cons]
    cases v with
    | nil => exact absurd rfl hv
    | cons c t => rfl

theorem joinChars_getLast :
    ∀ (L : List (List Char)), L ≠ [] → (∀ w ∈ L, w ≠ []) →
      ∃ w ∈ L, (joinChars L).getLast? = w.getLast? := by
  intro L
  induction L with
  | nil => intro h _; exact absurd rfl h
  | cons w L' ih =>
    intro _ hall
    cases L' with
    | nil => exact ⟨w, List.mem_cons_self _ _, rfl⟩
    | cons v rest =>
      have hv : v ≠ [] := hall v (List.mem_cons_of_mem _ (List.mem_cons_self _ _))
      obtain ⟨u, hu, heq⟩ := ih (by simp) (fun y hy => hall y (List.mem_cons_of_mem _ hy))
      refine ⟨u, List.mem_cons_of_mem _ hu, ?_⟩
      rw [joinChars_cons_cons, List.getLast?_append]
      have hne := joinChars_ne_nil rest hv
      have h3 : (' ' :: joinChars (v :: rest)).getLast? = (joinChars (v :: rest)).getLast? := by
        rw [List.getLast?_cons]
        cases hx : (joinChars (v :: rest)).getLast? with
        | none => exact absurd (List.getLast?_eq_none_iff.mp hx) hne
        | some y => rfl
      rw [h3, heq]
      cases hx : u.getLast? with
      | none => exact absurd (List.getLast?_eq_none_iff.mp hx) (hall u (List.mem_cons_of_mem _ hu))
      | some y => simp

theorem joinChars_chars :
    ∀ (L : List (List Char)), (∀ w ∈ L, ∀ c ∈ w, isKeep c) →
      ∀ c ∈ joinChars L, isKeep c ∨ c = ' ' := by
  intro L
  induction L with
  | nil => intro _ c hc; simp [joinChars] at hc
  | cons w L' ih =>
    intro hall c hc
    cases L' with
    | nil => exact Or.inl (hall w (List.mem_cons_self _ _) c hc)
    | cons v rest =>
      rw [joinChars_cons_cons] at hc
      rcases List.mem_append.mp hc with hc | hc
      · exact Or.inl (hall w (List.mem_cons_self _ _) c hc)
      · rcases List.mem_cons.mp hc with rfl | hc
        · exact Or.inr rfl
        · exact ih (fun y hy => hall y (List.mem_cons_of_mem _ hy)) c hc

theorem joinChars_chain :
    ∀ (L : List (List Char)), (∀ w ∈ L, w ≠ [] ∧ ∀ c ∈ w, isKeep c) →
      List.Chain' (fun a b => ¬ (a = ' ' ∧ b = ' ')) (joinChars L) := by
  intro L
  induction L with
  | nil => exact fun _ => List.chain'_nil
  | cons w L' ih =>
    intro hall
    have hwk := (hall w (List.mem_cons_self _ _)).2
    have hwns : ∀ c ∈ w, c ≠ ' ' := fun c hc => keep_ne_space (hwk c hc)
    cases L' with
    | nil =>
      show List.Chain' _ w
      simpa using chain_append_no_space w [] hwns List.chain'_nil
    | cons v rest =>
      rw [joinChars_cons_cons]
      refine chain_append_no_space w _ hwns ?_
      refine List.chain'_cons'.mpr ⟨?_, ih (fun y hy => hall y (List.mem_cons_of_mem _ hy))⟩
      intro y hy
      have hv : v ≠ [] := (hall v (List.mem_cons_of_mem _ (List.mem_cons_self _ _))).1
      rw [joinChars_head rest hv] at hy
      cases v with
      | nil => exact absurd rfl hv
      | cons c t =>
        simp only [List.head?_cons, Option.mem_def, Option.some.injEq] at hy
        subst hy
        have hne := keep_ne_space ((hall _ (List.mem_cons_of_mem _ (List.mem_cons_self _ _))).2 c
          (List.mem_cons_self _ _))
        exact fun hcon => hne hcon.2

theorem no_occur_join (q : List Char) (hq : q ≠ []) (hqs : ∀ c ∈ q, c ≠ ' ') :
    ∀ (L : List (List Char)), (∀ w ∈ L, ¬ q <:+: w) → ¬ q <:+: joinChars L := by
  intro L
  induction L with
  | nil =>
    intro _ hocc
    exact hq (List.infix_nil.mp hocc)
  | cons w L' ih =>
    intro hall hocc
    cases L' with
    | nil => exact hall w (List.mem_cons_self _ _) hocc
    | cons v rest =>
      rw [joinChars_cons_cons] at hocc
      rcases infix_append_split hocc with h | h | ⟨s, u, hq2, hs0, hu0, hs, hu⟩
      · exact hall w (List.mem_cons_self _ _) h
      · rcases List.infix_cons_iff.mp h with h5 | h5
        · cases q with
          | nil => exact hq rfl
          | cons qc qt =>
            exact hqs qc (List.mem_cons_self _ _) (List.cons_prefix_cons.mp h5).1
        · exact ih (fun y hy => hall y (List.mem_cons_of_mem _ hy)) h5
      · cases u with
        | nil => exact hu0 rfl
        | cons uc ut =>
          refine hqs uc ?_ (List.cons_prefix_cons.mp hu).1
          rw [hq2]
          exact List.mem_append_right s (List.mem_cons_self _ _)

theorem splitFrags_all_keep :
    ∀ (w : List Char), w ≠ [] → (∀ c ∈ w, isKeep c) → splitFrags w = [w] := by
  intro w
  induction w with
  | nil => intro h _; exact absurd rfl h
  | cons c w' ih =>
    intro _ hk
    simp only [splitFrags, if_pos (hk c (List.mem_cons_self _ _))]
    cases w' with
    | nil => rfl
    | cons d w'' =>
      rw [ih (by simp) (fun x hx => hk x (List.mem_cons_of_mem _ hx))]

theorem splitFrags_word_sep :
    ∀ (w x : List Char), w ≠ [] → (∀ c ∈ w, isKeep c) →
      splitFrags (w ++ ' ' :: x) = w :: splitFrags x := by
  intro w
  induction w with
  | nil => intro x h _; exact absurd rfl h
  | cons c w' ih =>
    intro x _ hk
    rw [List.cons_append]
    simp only [splitFrags, if_pos (hk c (List.mem_cons_self _ _))]
    cases w' with
    | nil =>
      have : splitFrags (' ' :: x) = [] :: splitFrags x := by
        simp only [splitFrags]
        rw [if_neg (by decide)]
      rw [List.nil_append, this]
    | cons d w'' =>
      rw [ih x (by simp) (fun y hy => hk y (List.mem_cons_of_mem _ hy))]

theorem splitFrags_join :
    ∀ (L : List (List Char)), L ≠ [] → (∀ w ∈ L, w ≠ [] ∧ ∀ c ∈ w, isKeep c) →
      splitFrags (joinChars L) = L := by
  intro L
  induction L with
  | nil => intro h _; exact absurd rfl h
  | cons w L' ih =>
    intro _ hall
    obtain ⟨hw0, hwk⟩ := hall w (List.mem_cons_self _ _)
    cases L' with
    | nil => exact splitFrags_all_keep w hw0 hwk
    | cons v rest =>
      rw [joinChars_cons_cons, splitFrags_word_sep w _ hw0 hwk,
        ih (by simp) (fun y hy => hall y (List.mem_cons_of_mem _ hy))]

theorem tokenLoop_fixed :
    ∀ (L : List (List Char)),
      (∀ w ∈ L, w ≠ [] ∧ stripEnds isStripPunct w = w ∧ String.mk w ∉ STOPWORDS) →
      tokenLoop L = L := by
  intro L
  induction L with
  | nil => intro _; rfl
  | cons w L' ih =>
    intro hall
    obtain ⟨hw0, hfix, hstop⟩ := hall w (List.mem_cons_self _ _)
    simp only [tokenLoop, if_neg hw0, hfix, if_neg hstop]
    exact congrArg (w :: ·) (ih (fun y hy => hall y (List.mem_cons_of_mem _ hy)))

theorem mk_data (s : String) : String.mk s.data = s := rfl

theorem map_mk_data : ∀ (L : List String), (L.map String.data).map String.mk = L := by
  intro L
  induction L with
  | nil => rfl
  | cons s L' ih => simp only [List.map_cons, mk_data, ih]

theorem extract_tokens_def (text : String) : extract_tokens text =
    ((tokenLoop (splitFrags (replaceList "node.js".data "nodejs".data
      (replaceList "react.js".data "reactjs".data
        ((cleanChars (text.data.map fun c => if isBullet c then ' ' else c)).map lowerChar))))).map
      String.mk).toFinset := rfl

theorem token_props (text : String) (w : List Char)
    (hw : w ∈ tokenLoop (splitFrags (replaceList "node.js".data "nodejs".data
      (replaceList "react.js".data "reactjs".data
        ((cleanChars (text.data.map fun c => if isBullet c then ' ' else c)).map lowerChar))))) :
    (∀ c ∈ w, isKeep c) ∧ stripEnds isStripPunct w = w ∧ String.mk w ∉ STOPWORDS ∧
      ¬ "react.js".data <:+: w ∧ ¬ "node.js".data <:+: w := by
  obtain ⟨w', hmem, hne, hweq, hstop⟩ := tokenLoop_mem hw
  obtain ⟨hkeep', hinf'⟩ := splitFrags_sound _ w' hmem
  have hwinf : w <:+: replaceList "node.js".data "nodejs".data
      (replaceList "react.js".data "reactjs".data
        ((cleanChars (text.data.map fun c => if isBullet c then ' ' else c)).map lowerChar)) := by
    rw [hweq]
    exact (stripEnds_infix_self _ w').trans hinf'
  refine ⟨?_, ?_, hstop, ?_, ?_⟩
  · intro c hc
    rw [hweq] at hc
    exact hkeep' c ((stripEnds_infix_self isStripPunct w').sublist.subset hc)
  · rw [hweq]
    exact stripEnds_idem _ _
  · intro hocc
    exact replace_preserves_no_react _ (replace_no_reoccur_react _) (hocc.trans hwinf)
  · intro hocc
    exact replace_no_reoccur_node _ (hocc.trans hwinf)

/-- C5 amended: tokenization is idempotent on its own output whenever
the token set does not contain the empty string: for any list
enumerating exactly the elements of extract_tokens applied to a text,
tokenizing the space-joined list returns the same set. -/
theorem c5_amended_idempotent_on_nonempty (t : String) (L : List String)
    (hL : ∀ s, s ∈ L ↔ s ∈ extract_tokens t)
    (hne : "" ∉ extract_tokens t) :
    extract_tokens (joinWords L) = extract_tokens t := by
  by_cases hL0 : L = []
  · subst hL0
    have hT : extract_tokens t = ∅ := by
      refine Finset.eq_empty_of_forall_not_mem ?_
      intro s hs
      exact absurd ((hL s).mpr hs) (List.not_mem_nil s)
    rw [hT]
    decide
  · have hmem : ∀ w ∈ L.map String.data,
        w ∈ tokenLoop (splitFrags (replaceList "node.js".data "nodejs".data
          (replaceList "react.js".data "reactjs".data
            ((cleanChars (t.data.map fun c => if isBullet c then ' ' else c)).map lowerChar)))) := by
      intro w hw
      obtain ⟨s, hsL, rfl⟩ := List.mem_map.mp hw
      have hs : s ∈ extract_tokens t := (hL s).mp hsL
      rw [extract_tokens_def, List.mem_toFinset] at hs
      obtain ⟨w', hw', hmk⟩ := List.mem_map.mp hs
      have hw2 : w' = s.data := by
        have := congrArg String.data hmk
        simpa using this
      exact hw2 ▸ hw'
    have hprops := fun w hw => token_props t w (hmem w hw)
    have hne' : ∀ w ∈ L.map String.data, w ≠ [] := by
      intro w hw h0
      obtain ⟨s, hsL, hsd⟩ := List.mem_map.mp hw
      have hs0 : s = "" := by
        cases s with
        | mk d =>
          rw [h0] at hsd
          have hd : d = [] := by simpa using hsd
          subst hd
          rfl
      exact hne (hs0 ▸ (hL s).mp hsL)
    have hchars : ∀ w ∈ L.map String.data, ∀ c ∈ w, isKeep c := fun w hw => (hprops w hw).1
    have hLC0 : L.map String.data ≠ [] := fun h => hL0 (List.map_eq_nil_iff.mp h)
    have h1 : (joinWords L).data.map (fun c => if isBullet c then ' ' else c) =
        joinChars (L.map String.data) := by
      show (joinChars (L.map String.data)).map _ = joinChars (L.map String.data)
      apply map_eq_self_of_fix
      intro c hc
      rcases joinChars_chars _ hchars c hc with hk | rfl
      · simp [keep_not_bullet hk]
      · decide
    have h2 : cleanChars (joinChars (L.map String.data)) = joinChars (L.map String.data) := by
      rw [cleanChars]
      have hmap : (joinChars (L.map String.data)).map (fun c => if isWs c then ' ' else c) =
          joinChars (L.map String.data) := by
        apply map_eq_self_of_fix
        intro c hc
        rcases joinChars_chars _ hchars c hc with hk | rfl
        · simp [keep_not_ws hk]
        · decide
      rw [hmap, collapseSpaces_eq_self _ (joinChars_chain _ (fun w hw => ⟨hne' w hw, hchars w hw⟩))]
      apply stripEnds_eq_self
      · intro x hx
        cases hLC : L.map String.data with
        | nil => exact absurd hLC hLC0
        | cons v rest =>
          have hvmem : v ∈ L.map String.data := by
            rw [hLC]
            exact List.mem_cons_self _ _
          rw [hLC, joinChars_head rest (hne' v hvmem)] at hx
          cases v with
          | nil => exact absurd rfl (hne' [] hvmem)
          | cons c tl =>
            simp only [List.head?_cons, Option.some.injEq] at hx
            subst hx
            exact keep_not_ws (hchars _ hvmem c (List.mem_cons_self _ _))
      · intro x hx
        obtain ⟨u, hu, heq⟩ := joinChars_getLast _ hLC0 hne'
        rw [heq] at hx
        exact keep_not_ws (hchars u hu x (List.mem_of_getLast?_eq_some hx))
    have hlow : (joinChars (L.map String.data)).map lowerChar = joinChars (L.map String.data) := by
      apply map_eq_self_of_fix
      intro c hc
      rcases joinChars_chars _ hchars c hc with hk | rfl
      · exact keep_lower_fix hk
      · decide
    have hrea : replaceList "react.js".data "reactjs".data (joinChars (L.map String.data)) =
        joinChars (L.map String.data) := by
      apply replace_eq_self_of_no_occur
      exact no_occur_join _ (by decide) (by decide) _ (fun w hw => (hprops w hw).2.2.2.1)
    have hnod : replaceList "node.js".data "nodejs".data (joinChars (L.map String.data)) =
        joinChars (L.map String.data) := by
      apply replace_eq_self_of_no_occur
      exact no_occur_join _ (by decide) (by decide) _ (fun w hw => (hprops w hw).2.2.2.2)
    rw [extract_tokens_def (joinWords L), h1, h2, hlow, hrea, hnod,
      splitFrags_join _ hLC0 (fun w hw => ⟨hne' w hw, hchars w hw⟩),
      tokenLoop_fixed _ (fun w hw => ⟨hne' w hw, (hprops w hw).2.1, (hprops w hw).2.2.1⟩),
      map_mk_data]
    ext s
    rw [List.mem_toFinset]
    exact hL s

/-- C5 counterexample: the claim fails on the text consisting of a
lone dot, whose token set is the singleton of the empty string; the
space-joined elements give the empty text, which tokenizes to the
empty set. -/
theorem c5_idempotence_counterexample :
    extract_tokens "." = {""} ∧ extract_tokens (joinWords [""]) ≠ extract_tokens "." :=
  ⟨by decide, by decide⟩

/-- Witness for the amended C5 at a concrete two-token text. -/
theorem c5_amended_idempotent_witness :
    ("" ∉ extract_tokens "python sql") ∧
    extract_tokens (joinWords ["python", "sql"]) = extract_tokens "python sql" := by
  refine ⟨by decide, c5_amended_idempotent_on_nonempty "python sql" ["python", "sql"] ?_ (by decide)⟩
  intro s
  have h : extract_tokens "python sql" = {"python", "sql"} := by decide
  rw [h]
  simp
